import Mathlib

/-!
Verification of the scalar-expression evaluation core of `doris`
(`be/src/vec/functions/math.cpp`, `be/src/olap/inverted_index_parser.cpp`).

Floating-point `Float64` values are modelled as exact numbers: inputs, whose
domain checks are pure comparisons, as `ℚ`; transcendental results as `ℝ`.
Machine integers are modelled as `ℤ`/`ℕ` with explicit reduction modulo `2^w`.
A nullable output cell is an `Option`: `none` is a null row.
-/

namespace Doris

/-- Bit pattern of a `w`-bit machine integer holding the signed value `a`
(the reinterpretation performed by a C++ cast to the unsigned type). -/
def toUnsigned (w : ℕ) (a : ℤ) : ℕ := (a % (2 ^ w : ℕ)).toNat

/-- Signed value of the `w`-bit pattern `n` (two's complement reading,
the reinterpretation performed by a C++ cast to the signed type). -/
def toSigned (w : ℕ) (n : ℕ) : ℤ :=
  if n < 2 ^ (w - 1) then (n : ℤ) else (n : ℤ) - 2 ^ w

/-- `w`-bit bitwise complement `~a` of a signed value, read back as signed. -/
def bitnot (w : ℕ) (a : ℤ) : ℤ := toSigned w (2 ^ w - 1 - toUnsigned w a)

namespace LogImpl

/-- `LogImpl::EPSILON = 1e-9` (math.cpp line 148). -/
def EPSILON : ℚ := 1 / 1000000000

/-- Null/value result of the per-row scalar `LogImpl::apply(A a, B b, UInt8&
is_null)` (math.cpp lines 170-176): sets `is_null = a <= 0 || b <= 0 ||
fabs(a - 1.0) < EPSILON` and computes `log(b) / log(a)`; a row whose
`is_null` flag is set is a null output cell, so the logical result is `none`
exactly when the flag is set and `log(b)/log(a)` otherwise. -/
noncomputable def apply_scalar (a b : ℚ) : Option ℝ :=
  if a ≤ 0 ∨ b ≤ 0 ∨ |a - 1| < EPSILON then none
  else some (Real.log (b : ℝ) / Real.log (a : ℝ))

/-- Bulk vectorized `LogImpl::apply(const ArrayA& a, B b, ...)` (math.cpp
lines 150-168): `a` is the column of bases, `b` the constant argument.
The code first `memset`s the whole null map to `b <= 0`; when `b > 0` it
loops over the rows, nulling row `i` when `a[i] <= 0 || fabs(a[i] - 1.0) <
EPSILON` and otherwise storing `log(b) / log(a[i])`. -/
noncomputable def apply_bulk (a : List ℚ) (b : ℚ) : List (Option ℝ) :=
  if b ≤ 0 then a.map fun _ => none
  else a.map fun (ai : ℚ) =>
    if ai ≤ 0 ∨ |ai - 1| < EPSILON then none
    else some (Real.log (b : ℝ) / Real.log (ai : ℝ))

end LogImpl

namespace AcosName

/-- `AcosName::is_invalid_input` (math.cpp line 55): `x < -1 || x > 1`. -/
def is_invalid_input (x : ℚ) : Bool := decide (x < -1) || decide (x > 1)

end AcosName

namespace AcoshName

/-- `AcoshName::is_invalid_input` (math.cpp line 62): `x < 1`. -/
def is_invalid_input (x : ℚ) : Bool := decide (x < 1)

end AcoshName

namespace AsinName

/-- `AsinName::is_invalid_input` (math.cpp line 70): `x < -1 || x > 1`. -/
def is_invalid_input (x : ℚ) : Bool := decide (x < -1) || decide (x > 1)

end AsinName

namespace AtanhName

/-- `AtanhName::is_invalid_input` (math.cpp line 87): `x <= -1 || x >= 1`. -/
def is_invalid_input (x : ℚ) : Bool := decide (x ≤ -1) || decide (x ≥ 1)

end AtanhName

namespace SqrtName

/-- `SqrtName::is_invalid_input` (math.cpp line 354): `x < 0`. -/
def is_invalid_input (x : ℚ) : Bool := decide (x < 0)

end SqrtName

/-- Modelled from the spec: the `FunctionMathUnaryAlwayNullable` dispatcher
(header `function_math_unary_alway_nullable.h`, which only instantiations of
appear in src/). Per §4.2, a conditionally nullable unary function evaluates
the validity predicate on the raw input value of each row before the
transform; an invalid row's output cell is null, a valid row's cell holds
the transform of the value; a row that is already null stays null. -/
def FunctionMathUnaryAlwayNullable (is_invalid : ℚ → Bool) (f : ℚ → ℝ)
    (input : List (Option ℚ)) : List (Option ℝ) :=
  input.map fun cell =>
    match cell with
    | none => none
    | some x => if is_invalid x then none else some (f x)

namespace SignImpl

/-- `static_cast<UInt8>` of a C++ `int` value: reduction modulo `2^8`. -/
def uint8_of_int (x : ℤ) : ℕ := (x % (256 : ℕ)).toNat

/-- `SignImpl::apply` for signed integral `A` (math.cpp lines 186-187):
`static_cast<UInt8>(a < 0 ? -1 : a == 0 ? 0 : 1)`. -/
def apply_int (a : ℤ) : ℕ :=
  uint8_of_int (if a < 0 then -1 else if a = 0 then 0 else 1)

/-- `SignImpl::apply` for floating-point / decimal `A` (math.cpp lines
184-185): `static_cast<UInt8>(a < A(0) ? -1 : a == A(0) ? 0 : 1)`. -/
def apply_float (a : ℚ) : ℕ :=
  uint8_of_int (if a < 0 then -1 else if a = 0 then 0 else 1)

/-- `SignImpl::apply` for unsigned integral `A` (math.cpp lines 188-189):
`static_cast<UInt8>(a == 0 ? 0 : 1)`. -/
def apply_unsigned (a : ℕ) : ℕ := uint8_of_int (if a = 0 then 0 else 1)

end SignImpl

namespace AbsImpl

/-- `AbsImpl::apply` for signed integral `A` of bit width `w` (math.cpp lines
205-209): `a < 0 ? static_cast<Result>(~a) + 1 : a`. The result type
`NumberTraits::ResultOfAbs<A>::Type` lives in `number_traits.h`, which is not
in src/ — Modelled from the spec (§4.1(b)): the signed input type maps to its
unsigned counterpart of the same width, so the result is a `w`-bit unsigned
value and result arithmetic reduces modulo `2^w`. -/
def apply_signed (w : ℕ) (a : ℤ) : ℕ :=
  if a < 0 then (toUnsigned w (bitnot w a) + 1) % 2 ^ w else toUnsigned w a

/-- `AbsImpl::apply` for unsigned integral `A` (math.cpp lines 210-211):
`static_cast<Result>(a)`, the identity on the value. -/
def apply_unsigned (a : ℕ) : ℕ := a

/-- `AbsImpl::apply` for floating-point `A` (math.cpp lines 212-214):
`std::abs(a)`, exact magnitude. -/
def apply_float (a : ℚ) : ℚ := |a|

end AbsImpl

namespace BinImpl

/-- The do-while loop of `BinImpl::bin_impl` (math.cpp lines 444-446) after
its first iteration: while the halved `uint64_t` value is non-zero, prepend
the character `'0' + (n & 1)`. The C++ loop halves a 64-bit value, so after
the first iteration it runs at most 63 more times; the fuel argument records
that hardware bound and makes the recursion structural. -/
def bin_loop : ℕ → ℕ → List Char
  | 0, _ => []
  | _ + 1, 0 => []
  | fuel + 1, m + 1 =>
    bin_loop fuel ((m + 1) / 2) ++ [Char.ofNat (48 + (m + 1) % 2)]

/-- `BinImpl::bin_impl` (math.cpp lines 439-448): reinterpret the `Int64`
input as `uint64_t`, then emit its binary digits most-significant first; the
do-while structure emits the lowest bit unconditionally (so input `0` yields
`"0"`) and the loop handles the rest. -/
def bin_impl (value : ℤ) : String :=
  ⟨bin_loop 64 (toUnsigned 64 value / 2) ++
    [Char.ofNat (48 + toUnsigned 64 value % 2)]⟩

end BinImpl

/-- Numeric value of a digit string read as binary, most-significant first
(accumulator form), used to state that `bin` returns the binary digits. -/
def binValAux (acc : ℕ) : List Char → ℕ
  | [] => acc
  | c :: cs => binValAux (2 * acc + (c.toNat - 48)) cs

/-- Numeric value of a most-significant-first binary digit string. -/
def binVal (l : List Char) : ℕ := binValAux 0 l

namespace UnaryFunctionPlainSin

/-- The statically linked `std::sin`, modelled as the real sine. -/
noncomputable def std_sin : ℝ → ℝ := Real.sin

/-- Modelled from the spec: the semantics of the `"sin"` symbol that
`UnaryFunctionPlainSin::get_sin_func` resolves from `libm.so.6` via
`dlopen`/`dlsym` (math.cpp lines 327-333) is not part of the repository;
per §4.2 the dynamically bound pointer is the C math library's sine — the
same elementary function the statically linked `std::sin` computes. -/
noncomputable def libm_sin : ℝ → ℝ := Real.sin

/-- `UnaryFunctionPlainSin::get_sin_func` (math.cpp lines 325-336): try the
dynamic lookup — success of `dlopen` and of `dlsym` modelled by two flags —
and fall back to the statically linked `std::sin` when either fails. -/
noncomputable def get_sin_func (dlopen_ok dlsym_ok : Bool) : ℝ → ℝ :=
  if dlopen_ok && dlsym_ok then libm_sin else std_sin

/-- `UnaryFunctionPlainSin::execute` (math.cpp lines 338-341): apply the
resolved function pointer to the source cell. -/
noncomputable def execute (dlopen_ok dlsym_ok : Bool) (src : ℝ) : ℝ :=
  get_sin_func dlopen_ok dlsym_ok src

end UnaryFunctionPlainSin

/-- The C error function `std::erf`: `erf x = 2/√π · ∫ t in 0..x, e^(-t²)`. -/
noncomputable def erf (x : ℝ) : ℝ :=
  2 / Real.sqrt Real.pi * ∫ t in (0 : ℝ)..x, Real.exp (-t ^ 2)

namespace FunctionNormalCdf

/-- One operand of `FunctionNormalCdf::execute_impl` after the constant
unwrapping of math.cpp lines 512-519: the stored data column plus the
`col_const` flag recording whether the operand was a `ColumnConst` (whose
underlying storage holds the single broadcast value). -/
structure Operand where
  data : List ℚ
  is_const : Bool

/-- `index_check_const(i, is_const)`: a constant operand is always read at
its single stored slot `0`. -/
def index_check_const (i : ℕ) (c : Bool) : ℕ := if c then 0 else i

/-- `get_element` on an unwrapped operand (math.cpp lines 527-529). -/
def get_element (c : Operand) (i : ℕ) : ℚ :=
  c.data.getD (index_check_const i c.is_const) 0

/-- `FunctionNormalCdf::check_argument` (math.cpp line 543): `sd > 0`. -/
def check_argument (sd : ℚ) : Bool := decide (sd > 0)

/-- `FunctionNormalCdf::calculate_cell` (math.cpp lines 544-552):
`0.5 * (erf((v - mean) / (sd * sqrt2)) + 1)`. -/
noncomputable def calculate_cell (mean sd v : ℚ) : ℝ :=
  0.5 * (erf (((v : ℝ) - (mean : ℝ)) / ((sd : ℝ) * Real.sqrt 2)) + 1)

/-- One iteration of the row loop of `FunctionNormalCdf::execute_impl`
(math.cpp lines 526-536): an `sd` failing `check_argument` nulls the row,
otherwise the cell holds `calculate_cell`. -/
noncomputable def row (mean sd v : ℚ) : Option ℝ :=
  if check_argument sd then some (calculate_cell mean sd v) else none

/-- `FunctionNormalCdf::execute_impl` (math.cpp lines 500-541): for each of
the `input_rows_count` rows read the three operands through
`index_check_const` and produce the row result; the result column is
nullable (`Option`-valued) regardless of input nullability. -/
noncomputable def execute_impl (mean sd v : Operand)
    (input_rows_count : ℕ) : List (Option ℝ) :=
  (List.range input_rows_count).map fun i =>
    row (get_element mean i) (get_element sd i) (get_element v i)

end FunctionNormalCdf

/-- Modelled from the spec: the property-key and value constants declared in
`inverted_index_parser.h`, which is not in src/; their concrete spellings are
irrelevant to the claims, which treat them as opaque distinct tokens. -/
def INVERTED_INDEX_PARSER_MODE_KEY : String := "parser_mode"

/-- Modelled from the spec: the tokenizer-kind property key (header not in
src/). -/
def INVERTED_INDEX_PARSER_KEY : String := "parser"

/-- Modelled from the spec: the ik tokenizer-kind constant (header not in
src/). -/
def INVERTED_INDEX_PARSER_IK : String := "ik"

/-- Modelled from the spec: the smart tokenizer-mode constant (header not in
src/). -/
def INVERTED_INDEX_PARSER_SMART : String := "ik_smart"

/-- Modelled from the spec: the coarse-granularity tokenizer-mode constant
(header not in src/). -/
def INVERTED_INDEX_PARSER_COARSE_GRANULARITY : String := "coarse_grained"

/-- `get_parser_mode_string_from_properties` (inverted_index_parser.cpp lines
80-91). The `std::map` of properties is modelled as a lookup function: if the
mode key is present return its value; otherwise return the smart mode when
the tokenizer-kind key is present with the ik value, else the
coarse-granularity mode. -/
def get_parser_mode_string_from_properties
    (properties : String → Option String) : String :=
  match properties INVERTED_INDEX_PARSER_MODE_KEY with
  | some v => v
  | none =>
    match properties INVERTED_INDEX_PARSER_KEY with
    | some pv =>
      if pv = INVERTED_INDEX_PARSER_IK then INVERTED_INDEX_PARSER_SMART
      else INVERTED_INDEX_PARSER_COARSE_GRANULARITY
    | none => INVERTED_INDEX_PARSER_COARSE_GRANULARITY

/-- Cast form of `toUnsigned`: the pattern is the value mod `2^w`. -/
theorem toUnsigned_cast (w : ℕ) (a : ℤ) :
    (toUnsigned w a : ℤ) = a % ((2 ^ w : ℕ) : ℤ) := by
  unfold toUnsigned
  exact Int.toNat_of_nonneg (Int.emod_nonneg _ (by positivity))

/-- `toUnsigned` is the identity on representable non-negative values. -/
theorem toUnsigned_of_nonneg (w : ℕ) (a : ℤ) (h0 : 0 ≤ a) (h : a < 2 ^ w) :
    (toUnsigned w a : ℤ) = a := by
  rw [toUnsigned_cast]
  exact Int.emod_eq_of_lt h0 (by push_cast; exact h)

/-- `toUnsigned` adds `2^w` to a representable negative value. -/
theorem toUnsigned_of_neg (w : ℕ) (a : ℤ) (h0 : -(2 ^ w) ≤ a) (h : a < 0) :
    (toUnsigned w a : ℤ) = a + 2 ^ w := by
  rw [toUnsigned_cast]
  have hrw : a % ((2 ^ w : ℕ) : ℤ) = (a + 2 ^ w) % ((2 ^ w : ℕ) : ℤ) := by
    rw [show ((2 ^ w : ℕ) : ℤ) = (2 ^ w : ℤ) by push_cast; ring]
    rw [show a + (2 : ℤ) ^ w = a + 2 ^ w * 1 by ring, Int.add_mul_emod_self_left]
  rw [hrw]
  exact Int.emod_eq_of_lt (by omega) (by push_cast; omega)

/-- C1 helper: the scalar path nulls exactly on the three-way domain check. -/
theorem logScalarNoneIff (a b : ℚ) :
    LogImpl.apply_scalar a b = none ↔ a ≤ 0 ∨ |a - 1| < LogImpl.EPSILON ∨ b ≤ 0 := by
  unfold LogImpl.apply_scalar
  split
  · simp only [true_iff]
    tauto
  · simp only [reduceCtorEq, false_iff]
    tauto

/-- Shared helper: the bulk path is the row-wise map of the scalar path. -/
theorem logBulkEqMapScalar (a : List ℚ) (b : ℚ) :
    LogImpl.apply_bulk a b = a.map fun ai => LogImpl.apply_scalar ai b := by
  unfold LogImpl.apply_bulk LogImpl.apply_scalar
  split
  · refine List.map_congr_left fun ai _ => ?_
    rw [if_pos]
    tauto
  · refine List.map_congr_left fun ai _ => ?_
    by_cases hai : ai ≤ 0 ∨ |ai - 1| < LogImpl.EPSILON
    · rw [if_pos hai, if_pos]
      tauto
    · rw [if_neg hai, if_neg]
      tauto

/-- Helper: `log(2, 8) = 3` exactly in the real-number model. -/
theorem logScalarTwoEight : LogImpl.apply_scalar 2 8 = some 3 := by
  rw [LogImpl.apply_scalar, if_neg]
  · have h8 : ((8 : ℚ) : ℝ) = (2 : ℝ) ^ (3 : ℕ) := by norm_num
    have h2 : ((2 : ℚ) : ℝ) = (2 : ℝ) := by norm_num
    have hlog2 : Real.log 2 ≠ 0 := ne_of_gt (Real.log_pos (by norm_num))
    rw [h8, h2, Real.log_pow]
    field_simp
  · rw [LogImpl.EPSILON]
    push_neg
    refine ⟨by norm_num, by norm_num, by rw [abs_of_nonneg] <;> norm_num⟩

/-- C1: for `log(base, argument)` (base is the first operand `a`, argument the
second operand `b`), a row is null exactly when the base is `≤ 0`, or within
`EPSILON = 1e-9` of `1`, or the argument is `≤ 0` — in both the scalar path
and, row by row, the bulk path; in particular base `1` is always null; on
valid inputs the value is `log(argument)/log(base)`, and `log(2, 8) = 3`. -/
theorem log_null_iff_and_value (a b : ℚ) (col : List ℚ) :
    (LogImpl.apply_scalar a b = none ↔
      a ≤ 0 ∨ |a - 1| < LogImpl.EPSILON ∨ b ≤ 0) ∧
    LogImpl.apply_scalar 1 b = none ∧
    (LogImpl.apply_bulk col b = col.map fun (base : ℚ) =>
      if base ≤ 0 ∨ |base - 1| < LogImpl.EPSILON ∨ b ≤ 0 then none
      else some (Real.log (b : ℝ) / Real.log (base : ℝ))) ∧
    (LogImpl.apply_scalar a b =
      if a ≤ 0 ∨ |a - 1| < LogImpl.EPSILON ∨ b ≤ 0 then none
      else some (Real.log (b : ℝ) / Real.log (a : ℝ))) ∧
    LogImpl.apply_scalar 2 8 = some 3 := by
  have hscal : ∀ x y : ℚ, LogImpl.apply_scalar x y =
      if x ≤ 0 ∨ |x - 1| < LogImpl.EPSILON ∨ y ≤ 0 then none
      else some (Real.log (y : ℝ) / Real.log (x : ℝ)) := by
    intro x y
    rw [LogImpl.apply_scalar]
    by_cases h : x ≤ 0 ∨ |x - 1| < LogImpl.EPSILON ∨ y ≤ 0
    · rw [if_pos h, if_pos (by tauto)]
    · rw [if_neg h, if_neg (by tauto)]
  refine ⟨logScalarNoneIff a b, ?_, ?_, hscal a b, logScalarTwoEight⟩
  · rw [logScalarNoneIff]
    right; left
    simp [LogImpl.EPSILON]
  · rw [logBulkEqMapScalar]
    exact List.map_congr_left fun base _ => hscal base b

/-- C2: the bulk vectorized call shape (vector of bases, constant scalar
argument) and the per-row scalar call shape agree on every logical input:
row `i` of the bulk result is exactly the scalar result on `(base i,
argument)` — same null classification and same value on non-null rows. -/
theorem log_bulk_scalar_agree (bases : List ℚ) (b : ℚ) :
    LogImpl.apply_bulk bases b =
      bases.map fun (base : ℚ) => LogImpl.apply_scalar base b :=
  logBulkEqMapScalar bases b

/-- C3: each conditionally-nullable unary function nulls every row whose
value fails its domain-validity predicate (and the output is defined for
every row — same length, no partiality); the predicates are exactly: acos
and asin invalid outside `[-1, 1]`, acosh invalid below `1`, atanh invalid
outside the open interval `(-1, 1)`, sqrt invalid below `0`; in particular
`sqrt(-1)` is null. -/
theorem always_nullable_invalid_row_is_null (f : ℚ → ℝ) (input : List (Option ℚ))
    (i : ℕ) (x : ℚ) (hx : input[i]? = some (some x)) :
    ((AcosName.is_invalid_input x = true ↔ x < -1 ∨ x > 1) ∧
     (AsinName.is_invalid_input x = true ↔ x < -1 ∨ x > 1) ∧
     (AcoshName.is_invalid_input x = true ↔ x < 1) ∧
     (AtanhName.is_invalid_input x = true ↔ x ≤ -1 ∨ x ≥ 1) ∧
     (SqrtName.is_invalid_input x = true ↔ x < 0)) ∧
    (∀ p : ℚ → Bool,
      (FunctionMathUnaryAlwayNullable p f input).length = input.length ∧
      (p x = true → (FunctionMathUnaryAlwayNullable p f input)[i]? = some none)) ∧
    FunctionMathUnaryAlwayNullable SqrtName.is_invalid_input f [some (-1)] = [none] := by
  refine ⟨⟨?_, ?_, ?_, ?_, ?_⟩, fun p => ⟨?_, fun hp => ?_⟩, ?_⟩
  · simp [AcosName.is_invalid_input]
  · simp [AsinName.is_invalid_input]
  · simp [AcoshName.is_invalid_input]
  · simp [AtanhName.is_invalid_input]
  · simp [SqrtName.is_invalid_input]
  · simp [FunctionMathUnaryAlwayNullable]
  · unfold FunctionMathUnaryAlwayNullable
    rw [List.getElem?_map, hx]
    simp [hp]
  · simp [FunctionMathUnaryAlwayNullable, SqrtName.is_invalid_input]

/-- Witness for C3 at `input = [some 2]`, row `0`, value `2`. -/
theorem always_nullable_invalid_row_is_null_witness :
    (([some (2 : ℚ)] : List (Option ℚ))[0]? = some (some (2 : ℚ))) ∧
    (((AcosName.is_invalid_input 2 = true ↔ (2 : ℚ) < -1 ∨ (2 : ℚ) > 1) ∧
      (AsinName.is_invalid_input 2 = true ↔ (2 : ℚ) < -1 ∨ (2 : ℚ) > 1) ∧
      (AcoshName.is_invalid_input 2 = true ↔ (2 : ℚ) < 1) ∧
      (AtanhName.is_invalid_input 2 = true ↔ (2 : ℚ) ≤ -1 ∨ (2 : ℚ) ≥ 1) ∧
      (SqrtName.is_invalid_input 2 = true ↔ (2 : ℚ) < 0)) ∧
     (∀ p : ℚ → Bool,
       (FunctionMathUnaryAlwayNullable p (fun _ => (0 : ℝ)) [some 2]).length =
         ([some (2 : ℚ)] : List (Option ℚ)).length ∧
       (p 2 = true →
         (FunctionMathUnaryAlwayNullable p (fun _ => (0 : ℝ)) [some 2])[0]? =
           some none)) ∧
     FunctionMathUnaryAlwayNullable SqrtName.is_invalid_input
       (fun _ => (0 : ℝ)) [some (-1)] = [none]) :=
  ⟨rfl, always_nullable_invalid_row_is_null (fun _ => (0 : ℝ)) [some 2] 0 2 rfl⟩

/-- C5: the sign of a signed integer or float, read back from the tinyint
result column (a `UInt8` cell reinterpreted as `Int8`), is `-1`, `0` or `1`
by trichotomy — in particular `sign(-7) = -1`, `sign(0) = 0`, `sign(7) = 1`;
for unsigned inputs the sign is `0` at `0` and `1` on positive values, and
is never `-1`. -/
theorem sign_values (a : ℤ) (q : ℚ) (n : ℕ) :
    (toSigned 8 (SignImpl.apply_int a) =
      if a < 0 then -1 else if a = 0 then 0 else 1) ∧
    (toSigned 8 (SignImpl.apply_float q) =
      if q < 0 then -1 else if q = 0 then 0 else 1) ∧
    toSigned 8 (SignImpl.apply_int (-7)) = -1 ∧
    toSigned 8 (SignImpl.apply_int 0) = 0 ∧
    toSigned 8 (SignImpl.apply_int 7) = 1 ∧
    (toSigned 8 (SignImpl.apply_unsigned n) = if n = 0 then 0 else 1) ∧
    toSigned 8 (SignImpl.apply_unsigned n) ≠ -1 := by
  have hm1 : toSigned 8 (SignImpl.uint8_of_int (-1)) = -1 := by decide
  have h0 : toSigned 8 (SignImpl.uint8_of_int 0) = 0 := by decide
  have hp1 : toSigned 8 (SignImpl.uint8_of_int 1) = 1 := by decide
  refine ⟨?_, ?_, by decide, by decide, by decide, ?_, ?_⟩
  · simp only [SignImpl.apply_int]
    split_ifs <;> first | exact hm1 | exact h0 | exact hp1
  · simp only [SignImpl.apply_float]
    split_ifs <;> first | exact hm1 | exact h0 | exact hp1
  · simp only [SignImpl.apply_unsigned]
    split_ifs <;> first | exact h0 | exact hp1
  · simp only [SignImpl.apply_unsigned]
    split_ifs
    · rw [h0]; decide
    · rw [hp1]; decide

/-- C7: absolute value of a representable signed `w`-bit integer, including
the minimum `-2^(w-1)`, equals the exact mathematical absolute value in the
result type (no wrap-around when negating the minimum); unsigned and
floating-point inputs map to themselves (`|q|` for floats). -/
theorem abs_exact (w : ℕ) (a : ℤ) (hw : 1 ≤ w) (hlo : -(2 ^ (w - 1)) ≤ a)
    (hhi : a < 2 ^ (w - 1)) :
    (AbsImpl.apply_signed w a : ℤ) = |a| ∧
    (∀ n : ℕ, AbsImpl.apply_unsigned n = n) ∧
    (∀ q : ℚ, AbsImpl.apply_float q = |q|) := by
  refine ⟨?_, fun n => rfl, fun q => rfl⟩
  have hpow : ((2 ^ w : ℕ) : ℤ) = (2 : ℤ) ^ w := by push_cast; ring
  have hpow1 : ((2 ^ (w - 1) : ℕ) : ℤ) = (2 : ℤ) ^ (w - 1) := by push_cast; ring
  have hhalf : (2 : ℤ) ^ (w - 1) < 2 ^ w := by
    apply pow_lt_pow_right₀ (by norm_num)
    omega
  by_cases ha : a < 0
  · rw [AbsImpl.apply_signed, if_pos ha]
    have hu : (toUnsigned w a : ℤ) = a + 2 ^ w :=
      toUnsigned_of_neg w a (by linarith) ha
    have hle : 1 + toUnsigned w a ≤ 2 ^ w := by
      have hcast : ((1 + toUnsigned w a : ℕ) : ℤ) ≤ ((2 ^ w : ℕ) : ℤ) := by
        push_cast
        rw [hu]
        linarith
      exact_mod_cast hcast
    have hsub : ((2 ^ w - 1 - toUnsigned w a : ℕ) : ℤ) = -a - 1 := by
      rw [Nat.sub_sub, Nat.cast_sub hle, hpow]
      push_cast
      rw [hu]
      ring
    have hbit : bitnot w a = -a - 1 := by
      rw [bitnot, toSigned, if_pos]
      · exact hsub
      · have hcast : ((2 ^ w - 1 - toUnsigned w a : ℕ) : ℤ) <
            ((2 ^ (w - 1) : ℕ) : ℤ) := by
          rw [hsub, hpow1]
          linarith
        exact_mod_cast hcast
    have hbu : (toUnsigned w (bitnot w a) : ℤ) = -a - 1 := by
      rw [hbit]
      exact toUnsigned_of_nonneg w _ (by linarith) (by linarith)
    have hlt : toUnsigned w (bitnot w a) + 1 < 2 ^ w := by
      have hcast : ((toUnsigned w (bitnot w a) + 1 : ℕ) : ℤ) < ((2 ^ w : ℕ) : ℤ) := by
        push_cast
        rw [hbu]
        linarith
      exact_mod_cast hcast
    rw [Nat.mod_eq_of_lt hlt]
    push_cast
    rw [hbu, abs_of_neg ha]
    ring
  · rw [AbsImpl.apply_signed, if_neg ha]
    push_neg at ha
    rw [toUnsigned_of_nonneg w a ha (by linarith), abs_of_nonneg ha]

/-- Witness for C7 at the 8-bit minimum value `a = -128`. -/
theorem abs_exact_witness :
    ((1 ≤ 8) ∧ -(2 ^ (8 - 1) : ℤ) ≤ -128 ∧ (-128 : ℤ) < 2 ^ (8 - 1)) ∧
    ((AbsImpl.apply_signed 8 (-128) : ℤ) = |(-128 : ℤ)| ∧
     (∀ n : ℕ, AbsImpl.apply_unsigned n = n) ∧
     (∀ q : ℚ, AbsImpl.apply_float q = |q|)) :=
  ⟨⟨by norm_num, by norm_num, by norm_num⟩,
    abs_exact 8 (-128) (by norm_num) (by norm_num) (by norm_num)⟩

/-- The bit pattern of a `w`-bit value is below `2^w`. -/
theorem toUnsigned_lt (w : ℕ) (a : ℤ) : toUnsigned w a < 2 ^ w := by
  have h : (toUnsigned w a : ℤ) < ((2 ^ w : ℕ) : ℤ) := by
    rw [toUnsigned_cast]
    exact Int.emod_lt_of_pos _ (by positivity)
  exact_mod_cast h

/-- `binValAux` distributes over list append. -/
theorem binValAux_append (l1 l2 : List Char) :
    ∀ acc, binValAux acc (l1 ++ l2) = binValAux (binValAux acc l1) l2 := by
  induction l1 with
  | nil => intro acc; rfl
  | cons c cs ih => intro acc; exact ih _

/-- The bin loop emits nothing once the value reaches `0`. -/
theorem bin_loop_zero (fuel : ℕ) : BinImpl.bin_loop fuel 0 = [] := by
  cases fuel <;> rfl

/-- The digit character emitted for a bit `r ≤ 1` has numeric value `r`. -/
theorem bin_digit_toNat (r : ℕ) (h : r ≤ 1) :
    (Char.ofNat (48 + r)).toNat = 48 + r := by
  interval_cases r <;> decide

/-- Unfolding `binValAux` one character at a time. -/
theorem binValAux_cons (acc : ℕ) (c : Char) (cs : List Char) :
    binValAux acc (c :: cs) = binValAux (2 * acc + (c.toNat - 48)) cs := rfl

/-- `binValAux` on the empty string returns the accumulator. -/
theorem binValAux_nil (acc : ℕ) : binValAux acc [] = acc := rfl

/-- The character list underlying the `bin` output string. -/
theorem bin_impl_data (value : ℤ) :
    (BinImpl.bin_impl value).data =
      BinImpl.bin_loop 64 (toUnsigned 64 value / 2) ++
        [Char.ofNat (48 + toUnsigned 64 value % 2)] := rfl

/-- With enough fuel, the bin loop emits exactly the binary digits of `n`:
reading them back most-significant first recovers `n`. -/
theorem bin_loop_val (fuel : ℕ) :
    ∀ n, n < 2 ^ fuel → binVal (BinImpl.bin_loop fuel n) = n := by
  induction fuel with
  | zero =>
    intro n h
    interval_cases n
    rfl
  | succ f ih =>
    intro n h
    match n with
    | 0 => rfl
    | m + 1 =>
      have hdiv : (m + 1) / 2 < 2 ^ f := by
        apply Nat.div_lt_of_lt_mul
        calc m + 1 < 2 ^ (f + 1) := h
        _ = 2 * 2 ^ f := by ring
      have hrec := ih ((m + 1) / 2) hdiv
      have hmod : (m + 1) % 2 ≤ 1 := Nat.le_of_lt_succ (Nat.mod_lt _ (by norm_num))
      rw [BinImpl.bin_loop, binVal, binValAux_append]
      rw [binVal] at hrec
      rw [hrec, binValAux_cons, binValAux_nil, bin_digit_toNat _ hmod]
      omega

/-- With enough fuel, the bin loop of a non-zero value starts with `'1'`:
the emitted digit string has no leading zeros. -/
theorem bin_loop_head (fuel : ℕ) :
    ∀ n, n ≠ 0 → n < 2 ^ fuel → (BinImpl.bin_loop fuel n).head? = some '1' := by
  induction fuel with
  | zero =>
    intro n hn h
    omega
  | succ f ih =>
    intro n hn h
    match n with
    | 0 => exact absurd rfl hn
    | m + 1 =>
      rw [BinImpl.bin_loop]
      by_cases hd : (m + 1) / 2 = 0
      · have hm : m = 0 := by omega
        subst hm
        rw [hd, bin_loop_zero]
        rfl
      · have hdiv : (m + 1) / 2 < 2 ^ f := by
          apply Nat.div_lt_of_lt_mul
          calc m + 1 < 2 ^ (f + 1) := h
          _ = 2 * 2 ^ f := by ring
        have hhead := ih ((m + 1) / 2) hd hdiv
        cases hl : BinImpl.bin_loop f ((m + 1) / 2) with
        | nil => rw [hl] at hhead; exact absurd hhead (by simp)
        | cons x xs =>
          rw [hl] at hhead
          simpa using hhead

/-- Every character the bin loop emits is `'0'` or `'1'`. -/
theorem bin_loop_chars (fuel : ℕ) :
    ∀ n, ∀ c ∈ BinImpl.bin_loop fuel n, c = '0' ∨ c = '1' := by
  induction fuel with
  | zero => intro n c hc; exact absurd hc (by simp [BinImpl.bin_loop])
  | succ f ih =>
    intro n c hc
    match n with
    | 0 => exact absurd hc (by simp [BinImpl.bin_loop])
    | m + 1 =>
      rw [BinImpl.bin_loop, List.mem_append] at hc
      rcases hc with hc | hc
      · exact ih _ c hc
      · have hmod : (m + 1) % 2 = 0 ∨ (m + 1) % 2 = 1 := Nat.mod_two_eq_zero_or_one _
        rcases hmod with hr | hr <;> rw [hr] at hc <;> simp at hc <;> subst hc
        · left; rfl
        · right; rfl

/-- Mapping a constant function over `range N` broadcasts the value. -/
theorem map_const_range {α : Type} (N : ℕ) (c : α) :
    (List.range N).map (fun _ => c) = List.replicate N c := by
  induction N with
  | zero => rfl
  | succ n ih =>
    rw [List.range_succ, List.map_append, ih, List.map_singleton,
      ← List.replicate_succ']

/-- `erf 0 = 0`: the interval integral over `[0, 0]` vanishes. -/
theorem erf_zero : erf 0 = 0 := by
  rw [erf, intervalIntegral.integral_same, mul_zero]

/-- C4: one row of `normal_cdf(mean, sd, v)` is null exactly when `sd ≤ 0`
(whatever `mean` and `v` are), and otherwise holds
`1/2 * (erf((v - mean) / (sd * √2)) + 1)`; the output is an `Option` column
(always logically nullable); `normal_cdf(0, 1, 0) = 1/2`. -/
theorem normal_cdf_spec (mean sd v : FunctionNormalCdf.Operand) (N : ℕ) :
    (FunctionNormalCdf.execute_impl mean sd v N = (List.range N).map fun i =>
      if FunctionNormalCdf.get_element sd i ≤ 0 then none
      else some ((1 / 2 : ℝ) *
        (erf (((FunctionNormalCdf.get_element v i : ℝ) -
            (FunctionNormalCdf.get_element mean i : ℝ)) /
          ((FunctionNormalCdf.get_element sd i : ℝ) * Real.sqrt 2)) + 1))) ∧
    FunctionNormalCdf.row 0 1 0 = some (1 / 2) := by
  have hrow : ∀ m s vv : ℚ, FunctionNormalCdf.row m s vv =
      if s ≤ 0 then none
      else some ((1 / 2 : ℝ) *
        (erf (((vv : ℝ) - (m : ℝ)) / ((s : ℝ) * Real.sqrt 2)) + 1)) := by
    intro m s vv
    rw [FunctionNormalCdf.row, FunctionNormalCdf.calculate_cell,
      FunctionNormalCdf.check_argument]
    by_cases hs : s ≤ 0
    · rw [if_pos hs, if_neg (by simpa using hs)]
    · rw [if_neg hs, if_pos (by simp; linarith [lt_of_not_le hs])]
      norm_num
  constructor
  · rw [FunctionNormalCdf.execute_impl]
    exact List.map_congr_left fun i _ => hrow _ _ _
  · rw [hrow 0 1 0, if_neg (by norm_num)]
    rw [show ((0 : ℚ) : ℝ) = (0 : ℝ) by norm_num]
    rw [show (0 : ℝ) - 0 = 0 by ring, zero_div, erf_zero]
    norm_num

/-- C6: `bin(0) = "0"`, `bin(5) = "101"`, `bin(-1)` is sixty-four `'1'`
characters (the two's-complement pattern); in general `bin` emits the binary
digits (characters `'0'`/`'1'`) of the input reinterpreted as an unsigned
64-bit value, most-significant first, with no leading zero unless the value
is `0`. -/
theorem bin_spec (value : ℤ) :
    BinImpl.bin_impl 0 = "0" ∧
    BinImpl.bin_impl 5 = "101" ∧
    BinImpl.bin_impl (-1) = ⟨List.replicate 64 '1'⟩ ∧
    binVal (BinImpl.bin_impl value).data = toUnsigned 64 value ∧
    (∀ c ∈ (BinImpl.bin_impl value).data, c = '0' ∨ c = '1') ∧
    (toUnsigned 64 value ≠ 0 → (BinImpl.bin_impl value).data.head? = some '1') := by
  have hn : toUnsigned 64 value < 2 ^ 64 := toUnsigned_lt 64 value
  have hdiv : toUnsigned 64 value / 2 < 2 ^ 64 := by
    exact lt_of_le_of_lt (Nat.div_le_self _ _) hn
  have hmod : toUnsigned 64 value % 2 ≤ 1 :=
    Nat.le_of_lt_succ (Nat.mod_lt _ (by norm_num))
  refine ⟨by decide, by decide, by decide, ?_, ?_, ?_⟩
  · rw [bin_impl_data, binVal, binValAux_append]
    have hrec := bin_loop_val 64 _ hdiv
    rw [binVal] at hrec
    rw [hrec, binValAux_cons, binValAux_nil, bin_digit_toNat _ hmod]
    omega
  · intro c hc
    rw [bin_impl_data, List.mem_append] at hc
    rcases hc with hc | hc
    · exact bin_loop_chars 64 _ c hc
    · have h01 : toUnsigned 64 value % 2 = 0 ∨ toUnsigned 64 value % 2 = 1 :=
        Nat.mod_two_eq_zero_or_one _
      rcases h01 with hr | hr <;> rw [hr] at hc <;> simp at hc <;> subst hc
      · left; rfl
      · right; rfl
  · intro hnz
    rw [bin_impl_data]
    by_cases hd : toUnsigned 64 value / 2 = 0
    · have h1 : toUnsigned 64 value = 1 := by omega
      rw [hd, bin_loop_zero, h1]
      rfl
    · have hhead := bin_loop_head 64 _ hd hdiv
      cases hl : BinImpl.bin_loop 64 (toUnsigned 64 value / 2) with
      | nil => rw [hl] at hhead; exact absurd hhead (by simp)
      | cons x xs =>
        rw [hl] at hhead
        simpa using hhead

/-- Witness for C6: the no-leading-zero conjunct at input `5`. -/
theorem bin_spec_witness :
    toUnsigned 64 (5 : ℤ) ≠ 0 ∧ (BinImpl.bin_impl 5).data.head? = some '1' :=
  ⟨by decide, (bin_spec 5).2.2.2.2.2 (by decide)⟩

/-- C8: with all three operands constant (broadcast) columns, every one of
the `N` output rows of `normal_cdf` equals the single evaluation on the
stored scalar values — the scalar result, null status included, broadcast to
`N` rows. -/
theorem normal_cdf_const_broadcast (mean sd v : FunctionNormalCdf.Operand)
    (N : ℕ) (hm : mean.is_const = true) (hs : sd.is_const = true)
    (hv : v.is_const = true) :
    FunctionNormalCdf.execute_impl mean sd v N =
      List.replicate N (FunctionNormalCdf.row
        (mean.data.getD 0 0) (sd.data.getD 0 0) (v.data.getD 0 0)) := by
  have hg : ∀ (c : FunctionNormalCdf.Operand), c.is_const = true →
      ∀ i, FunctionNormalCdf.get_element c i = c.data.getD 0 0 := by
    intro c hc i
    rw [FunctionNormalCdf.get_element, FunctionNormalCdf.index_check_const, hc]
    rfl
  rw [FunctionNormalCdf.execute_impl]
  calc (List.range N).map (fun i => FunctionNormalCdf.row
        (FunctionNormalCdf.get_element mean i)
        (FunctionNormalCdf.get_element sd i)
        (FunctionNormalCdf.get_element v i))
      = (List.range N).map (fun _ => FunctionNormalCdf.row
        (mean.data.getD 0 0) (sd.data.getD 0 0) (v.data.getD 0 0)) :=
        List.map_congr_left fun i _ => by
          rw [hg mean hm i, hg sd hs i, hg v hv i]
    _ = List.replicate N (FunctionNormalCdf.row
        (mean.data.getD 0 0) (sd.data.getD 0 0) (v.data.getD 0 0)) :=
        map_const_range N _

/-- Witness for C8: three constant operands `(0, 1, 0)` over two rows. -/
theorem normal_cdf_const_broadcast_witness :
    ((⟨[0], true⟩ : FunctionNormalCdf.Operand).is_const = true ∧
     (⟨[1], true⟩ : FunctionNormalCdf.Operand).is_const = true ∧
     (⟨[0], true⟩ : FunctionNormalCdf.Operand).is_const = true) ∧
    FunctionNormalCdf.execute_impl ⟨[0], true⟩ ⟨[1], true⟩ ⟨[0], true⟩ 2 =
      List.replicate 2 (FunctionNormalCdf.row
        ((⟨[0], true⟩ : FunctionNormalCdf.Operand).data.getD 0 0)
        ((⟨[1], true⟩ : FunctionNormalCdf.Operand).data.getD 0 0)
        ((⟨[0], true⟩ : FunctionNormalCdf.Operand).data.getD 0 0)) :=
  ⟨⟨rfl, rfl, rfl⟩,
    normal_cdf_const_broadcast ⟨[0], true⟩ ⟨[1], true⟩ ⟨[0], true⟩ 2 rfl rfl rfl⟩

/-- C9: whatever the outcome of the dynamic `libm` lookup, the sine kernel
computes exactly what the statically linked `std::sin` computes on every
input — the lazily resolved pointer is externally indistinguishable. -/
theorem sin_dynamic_static_agree (dlopen_ok dlsym_ok : Bool) (x : ℝ) :
    UnaryFunctionPlainSin.execute dlopen_ok dlsym_ok x =
      UnaryFunctionPlainSin.std_sin x := by
  rw [UnaryFunctionPlainSin.execute, UnaryFunctionPlainSin.get_sin_func]
  split
  · rfl
  · rfl

/-- C10: when the tokenizer-mode key is absent, the resolved mode defaults to
the smart constant when the tokenizer-kind key holds the ik constant, and to
the coarse-granularity constant otherwise; a present mode key is returned
unchanged. -/
theorem parser_mode_defaults (properties : String → Option String) (v : String) :
    (properties INVERTED_INDEX_PARSER_MODE_KEY = some v →
      get_parser_mode_string_from_properties properties = v) ∧
    (properties INVERTED_INDEX_PARSER_MODE_KEY = none →
      properties INVERTED_INDEX_PARSER_KEY = some INVERTED_INDEX_PARSER_IK →
      get_parser_mode_string_from_properties properties =
        INVERTED_INDEX_PARSER_SMART) ∧
    (properties INVERTED_INDEX_PARSER_MODE_KEY = none →
      ¬ properties INVERTED_INDEX_PARSER_KEY = some INVERTED_INDEX_PARSER_IK →
      get_parser_mode_string_from_properties properties =
        INVERTED_INDEX_PARSER_COARSE_GRANULARITY) := by
  refine ⟨fun h => ?_, fun h hik => ?_, fun h hik => ?_⟩
  · rw [get_parser_mode_string_from_properties, h]
  · rw [get_parser_mode_string_from_properties, h, hik]
    simp
  · rw [get_parser_mode_string_from_properties, h]
    cases hpk : properties INVERTED_INDEX_PARSER_KEY with
    | none => rfl
    | some w =>
      have hw : ¬ w = INVERTED_INDEX_PARSER_IK := fun he => hik (by rw [hpk, he])
      simp [hw]

/-- Witness for C10: a map holding only the tokenizer-kind key with the ik
value resolves to the smart mode. -/
theorem parser_mode_defaults_witness :
    ((fun k => if k = INVERTED_INDEX_PARSER_KEY
        then some INVERTED_INDEX_PARSER_IK else none)
      INVERTED_INDEX_PARSER_MODE_KEY = (none : Option String)) ∧
    ((fun k => if k = INVERTED_INDEX_PARSER_KEY
        then some INVERTED_INDEX_PARSER_IK else none)
      INVERTED_INDEX_PARSER_KEY = some INVERTED_INDEX_PARSER_IK) ∧
    get_parser_mode_string_from_properties
      (fun k => if k = INVERTED_INDEX_PARSER_KEY
        then some INVERTED_INDEX_PARSER_IK else none) =
      INVERTED_INDEX_PARSER_SMART :=
  ⟨by decide, by decide,
    (parser_mode_defaults
      (fun k => if k = INVERTED_INDEX_PARSER_KEY
        then some INVERTED_INDEX_PARSER_IK else none) "").2.1
      (by decide) (by decide)⟩

end Doris
